import Mathlib

/-!
Verification of the ripit pattern-search wrapper (src/ripit.py).

Strings are modelled as lists of characters.  Python method `str.replace` is
modelled by `replaceAll`, which scans left to right and replaces
non-overlapping occurrences of a literal substring, resuming after the
replacement text, exactly as CPython does for a nonempty pattern; for the
empty pattern CPython inserts the replacement between every character, which
is modelled too.  The external process spawned by `subprocess.run` is
modelled by an oracle from command vectors to outcomes: either the
executable is missing (Python raises FileNotFoundError) or the process ran
to completion with captured standard output, standard error and exit code
(the source passes check=False, so a nonzero exit code never raises).
-/

/-- Boolean test that the first list begins with the second (the literal
pattern). -/
def startsWith : List Char → List Char → Bool
  | _, [] => true
  | [], _ :: _ => false
  | c :: s, p :: ps => c == p && startsWith s ps

/-- Model of Python `str.replace(pat, rep)` on lists of characters: replace
every non-overlapping occurrence of `pat` by `rep`, scanning left to right
and resuming after the inserted replacement. -/
def replaceAll (pat rep : List Char) (s : List Char) : List Char :=
  match pat, s with
  | [], [] => rep
  | [], c :: rest => rep ++ c :: replaceAll [] rep rest
  | _ :: _, [] => []
  | p :: ps, c :: rest =>
    if startsWith (c :: rest) (p :: ps) then
      rep ++ replaceAll (p :: ps) rep (List.drop (p :: ps).length (c :: rest))
    else
      c :: replaceAll (p :: ps) rep rest
termination_by s.length
decreasing_by
  · simp
  · simp [List.length_drop]
    omega
  · simp

/-- Model of `Ripit._convert_pattern` (src/ripit.py lines 38-65): escape
literal parentheses, then square brackets, then curly braces, each by
prefixing a backslash; afterwards substitute the placeholder token `<>` by
`.*`, then `<name>` by a backslash-w-plus fragment, then `<num>` by a
backslash-d-plus fragment.  The curly brace characters are written with
their \x7b and \x7d codes. -/
def convertPattern (pattern : List Char) : List Char :=
  let q1 := replaceAll [ '(' ] [ '\\', '(' ] pattern
  let q2 := replaceAll [ ')' ] [ '\\', ')' ] q1
  let q3 := replaceAll [ '[' ] [ '\\', '[' ] q2
  let q4 := replaceAll [ ']' ] [ '\\', ']' ] q3
  let q5 := replaceAll [ '\x7b' ] [ '\\', '\x7b' ] q4
  let q6 := replaceAll [ '\x7d' ] [ '\\', '\x7d' ] q5
  let q7 := replaceAll [ '<', '>' ] [ '.', '*' ] q6
  let q8 := replaceAll [ '<', 'n', 'a', 'm', 'e', '>' ] [ '\\', 'w', '+' ] q7
  replaceAll [ '<', 'n', 'u', 'm', '>' ] [ '\\', 'd', '+' ] q8

/-- Restatement of the translation algorithm exactly as the specification
words it (spec section 4.1, steps 1 to 6): escape parentheses, escape
square brackets, escape curly braces, replace the token `<>` by `.*`,
replace `<name>` by a backslash-w-plus fragment, replace `<num>` by a
backslash-d-plus fragment, in this order.  It is compared with
`convertPattern`, the definition taken from the source. -/
def translateSpecC1 (p : List Char) : List Char :=
  replaceAll "<num>".data "\\d+".data
    (replaceAll "<name>".data "\\w+".data
      (replaceAll "<>".data ".*".data
        (replaceAll "\x7d".data "\\\x7d".data
          (replaceAll "\x7b".data "\\\x7b".data
            (replaceAll "]".data "\\]".data
              (replaceAll "[".data "\\[".data
                (replaceAll ")".data "\\)".data
                  (replaceAll "(".data "\\(".data p))))))))

/-- Boolean test that the literal pattern occurs somewhere in the list,
modelling the Python expression `pat in s`. -/
def occursIn (pat : List Char) : List Char → Bool
  | [] => startsWith [] pat
  | c :: rest => startsWith (c :: rest) pat || occursIn pat rest

/-- The six characters the translator escapes. -/
def isBracket (c : Char) : Bool :=
  c == '(' || c == ')' || c == '[' || c == ']' || c == '\x7b' || c == '\x7d'

/-- Scan that checks every escaped-set character is immediately preceded by
a backslash; the flag records whether the character before the current
position is a backslash. -/
def okFrom (prevBackslash : Bool) : List Char → Bool
  | [] => true
  | c :: rest => (!(isBracket c) || prevBackslash) && okFrom (c == '\\') rest

/-- Whether the last character of the list is a backslash, with the given
value for the empty list. -/
def endsBS (b : Bool) : List Char → Bool
  | [] => b
  | c :: rest => endsBS (c == '\\') rest

/-- Escape a single character the way the translator's first six steps do:
the escaped-set characters get a backslash prefixed, any other character is
left alone. -/
def escBr (c : Char) : List Char :=
  if isBracket c then [ '\\', c ] else [ c ]

/-- The first six steps of the translator: the escaping passes only. -/
def escapeAll (p : List Char) : List Char :=
  replaceAll [ '\x7d' ] [ '\\', '\x7d' ]
    (replaceAll [ '\x7b' ] [ '\\', '\x7b' ]
      (replaceAll [ ']' ] [ '\\', ']' ]
        (replaceAll [ '[' ] [ '\\', '[' ]
          (replaceAll [ ')' ] [ '\\', ')' ]
            (replaceAll [ '(' ] [ '\\', '(' ] p)))))

/-- Characters Python `str.strip` and `str.isspace` treat as whitespace. -/
def isPySpace (c : Char) : Bool :=
  c == ' ' || c == '\t' || c == '\n' || c == '\r' || c == '\x0b' ||
  c == '\x0c' || c == '\x1c' || c == '\x1d' || c == '\x1e' || c == '\x1f' ||
  c == '\x85' || c == '\xa0' || c == '\u1680' ||
  ('\u2000' ≤ c && c ≤ '\u200a') || c == '\u2028' || c == '\u2029' ||
  c == '\u202f' || c == '\u205f' || c == '\u3000'

/-- Model of Python `str.strip()`: drop whitespace from both ends. -/
def strip (s : List Char) : List Char :=
  ((s.dropWhile isPySpace).reverse.dropWhile isPySpace).reverse

/-- Characters Python `str.splitlines()` treats as line boundaries. -/
def isLineBreak (c : Char) : Bool :=
  c == '\n' || c == '\r' || c == '\x0b' || c == '\x0c' || c == '\x1c' ||
  c == '\x1d' || c == '\x1e' || c == '\x85' || c == '\u2028' || c == '\u2029'

/-- Worker for `splitlines`; `cur` holds the current line reversed. -/
def splitlinesGo (cur : List Char) : List Char → List (List Char)
  | [] => if cur.isEmpty then [] else [ cur.reverse ]
  | '\r' :: '\n' :: rest => cur.reverse :: splitlinesGo [] rest
  | c :: rest =>
    if isLineBreak c then cur.reverse :: splitlinesGo [] rest
    else splitlinesGo (c :: cur) rest

/-- Model of Python `str.splitlines()`: split at line boundaries, treating a
carriage-return line-feed pair as one boundary, with no empty final line
after a trailing boundary. -/
def splitlines (s : List Char) : List (List Char) :=
  splitlinesGo [] s

/-- Model of Python `str.split(sep)` for a one-character separator: the
result is never empty and has one more field than there are separators. -/
def splitOnChar (sep : Char) : List Char → List (List Char)
  | [] => [ [] ]
  | c :: rest =>
    if c == sep then [] :: splitOnChar sep rest
    else
      match splitOnChar sep rest with
      | [] => [ [ c ] ]
      | f :: fs => (c :: f) :: fs

/-- Digit-run parser used by `pyInt`, after the first digit: accepts further
digits with single underscores allowed between digits, as Python `int()`
does. -/
def pyDigitsAux (acc : Nat) : List Char → Option Nat
  | [] => some acc
  | [ '_' ] => none
  | '_' :: c :: rest =>
    if c.isDigit then pyDigitsAux (acc * 10 + (c.toNat - 48)) rest else none
  | c :: rest =>
    if c.isDigit then pyDigitsAux (acc * 10 + (c.toNat - 48)) rest else none

/-- Nonempty digit run with single underscores between digits. -/
def pyDigits : List Char → Option Nat
  | [] => none
  | c :: rest =>
    if c.isDigit then pyDigitsAux (c.toNat - 48) rest else none

/-- Model of Python `int(s)` on decimal text: surrounding whitespace is
stripped, an optional single sign is read, then a nonempty run of ASCII
digits with single underscores allowed between digits; anything else fails
(Python raises ValueError).  Non-ASCII decimal digits, which CPython also
accepts, are not modelled; no claim depends on them. -/
def pyInt (s : List Char) : Option Int :=
  match strip s with
  | '+' :: rest => (pyDigits rest).map (fun n => (n : Int))
  | '-' :: rest => (pyDigits rest).map (fun n => -(n : Int))
  | rest => (pyDigits rest).map (fun n => (n : Int))

/-- Post-processing of `Ripit.lines` (src/ripit.py line 104): split the raw
output into lines and keep the lines that are nonempty after stripping
whitespace. -/
def linesOf (output : List Char) : List (List Char) :=
  (splitlines output).filter (fun line => !(strip line).isEmpty)

/-- One step of the count loop (src/ripit.py lines 120-127): if the line
contains a colon, parse the last colon-separated field as an integer and add
it to the total, leaving the total unchanged when parsing fails. -/
def countLine (total : Int) (line : List Char) : Int :=
  if line.contains ':' then
    match pyInt ((splitOnChar ':' line).getLastD []) with
    | some n => total + n
    | none => total
  else total

/-- Post-processing of `Ripit.count` (src/ripit.py lines 119-128): fold the
count loop over the lines of the raw output, starting from zero. -/
def countOutput (output : List Char) : Int :=
  (splitlines output).foldl countLine 0

/-- The text after the last colon of the line, if the line has a colon.
This is the specification's reading of the last colon-delimited field; it is
compared with the source's split-and-take-last computation. -/
def afterLastColon : List Char → Option (List Char)
  | [] => none
  | c :: rest =>
    match afterLastColon rest with
    | some t => some t
    | none => if c == ':' then some rest else none

/-- Restatement of the count aggregation as the specification words it: per
line, parse the last colon-delimited field as an integer, keep the parses
that succeed, and sum them, so that the total is zero when no line parses.
It is compared with `countOutput`, the definition taken from the source. -/
def countSpec (output : List Char) : Int :=
  ((splitlines output).filterMap
    (fun line => (afterLastColon line).bind pyInt)).sum

/-- The searcher object: the only state is the default-argument list fixed
at construction (src/ripit.py line 36). -/
structure Ripit where
  default_args : List (List Char)
deriving DecidableEq

/-- Outcome of one `subprocess.run` call, as seen by the wrapper: the
executable was not found (FileNotFoundError), or the process ran and
produced standard output, standard error and an exit code. -/
inductive ExecOutcome where
  | notFound
  | ran (stdout : List Char) (stderr : List Char) (exitCode : Int)
deriving DecidableEq

/-- The one error the wrapper ever raises (the ImportError of
src/ripit.py lines 15 and 90, reporting a missing ripgrep). -/
inductive RipitError where
  | dependencyMissing
deriving DecidableEq

/-- Model of `Ripit.__init__` (src/ripit.py lines 28-36) together with
`_check_ripgrep` (lines 12-22): when the rg executable is not on the path,
construction fails at once with the dependency-missing error, before any
search; otherwise the searcher holds the supplied default arguments, an
absent argument meaning the empty list. -/
def ripitInit (rgOnPath : Bool) (default_args : Option (List (List Char))) :
    Except RipitError Ripit :=
  if rgOnPath then Except.ok ⟨default_args.getD []⟩
  else Except.error RipitError.dependencyMissing

/-- The command vector `Ripit.search` executes (src/ripit.py line 79): the
tool name, the translated pattern, the default arguments, then the extra
arguments. -/
def searchCmd (r : Ripit) (pattern : List Char) (args : List (List Char)) :
    List (List Char) :=
  [ "rg".data, convertPattern pattern ] ++ r.default_args ++ args

/-- The command vector a count invocation executes: `Ripit.count`
(src/ripit.py line 117) calls search with the per-file count flag placed
before the caller's extra arguments. -/
def countCmd (r : Ripit) (pattern : List Char) (args : List (List Char)) :
    List (List Char) :=
  searchCmd r pattern ("-c".data :: args)

/-- Model of `Ripit.search` (src/ripit.py lines 67-90): run the external
tool on the built command vector and return its standard output, ignoring
standard error and the exit code; only a missing executable raises, and it
raises the dependency-missing error. -/
def Ripit.search (exec : List (List Char) → ExecOutcome) (r : Ripit)
    (pattern : List Char) (args : List (List Char)) :
    Except RipitError (List Char) :=
  match exec (searchCmd r pattern args) with
  | ExecOutcome.notFound => Except.error RipitError.dependencyMissing
  | ExecOutcome.ran out _ _ => Except.ok out

/-- Model of `Ripit.lines` (src/ripit.py lines 92-104): search, then keep
the non-blank lines of the output. -/
def Ripit.lines (exec : List (List Char) → ExecOutcome) (r : Ripit)
    (pattern : List Char) (args : List (List Char)) :
    Except RipitError (List (List Char)) :=
  (r.search exec pattern args).map linesOf

/-- Model of `Ripit.count` (src/ripit.py lines 106-128): search with the
count flag inserted before the extra arguments, then sum the per-file
counts. -/
def Ripit.count (exec : List (List Char) → ExecOutcome) (r : Ripit)
    (pattern : List Char) (args : List (List Char)) :
    Except RipitError Int :=
  (r.search exec pattern ("-c".data :: args)).map countOutput

/-- One public operation on a searcher instance, with its inputs. -/
inductive RipitOp where
  | searchOp (pattern : List Char) (args : List (List Char))
  | linesOp (pattern : List Char) (args : List (List Char))
  | countOp (pattern : List Char) (args : List (List Char))
deriving DecidableEq

/-- The command vector one operation executes on the given instance. -/
def opCmd (r : Ripit) : RipitOp → List (List Char)
  | RipitOp.searchOp p args => searchCmd r p args
  | RipitOp.linesOp p args => searchCmd r p args
  | RipitOp.countOp p args => countCmd r p args

/-- Run a sequence of operations on one searcher instance, threading the
instance state from call to call and recording each executed command
vector.  The source methods contain no assignment to self.default_args, so
each call hands the state on unchanged. -/
def runOps (r : Ripit) : List RipitOp → Ripit × List (List (List Char))
  | [] => (r, [])
  | op :: rest =>
    let rAfter := r
    let tail := runOps rAfter rest
    (tail.fst, opCmd r op :: tail.snd)

/-! ## Helper lemmas -/

/-- Unfolding lemma: a nonempty pattern leaves the empty string empty. -/
theorem replaceAll_nil (p : Char) (ps rep : List Char) :
    replaceAll (p :: ps) rep [] = [] := by
  simp [replaceAll]

/-- Unfolding lemma: when the pattern matches at the head, the replacement
is emitted and scanning resumes after the matched text. -/
theorem replaceAll_cons_pos (p : Char) (ps rep : List Char) (c : Char)
    (rest : List Char) (h : startsWith (c :: rest) (p :: ps) = true) :
    replaceAll (p :: ps) rep (c :: rest) =
      rep ++ replaceAll (p :: ps) rep (List.drop ps.length rest) := by
  rw [replaceAll]
  simp [h]

/-- Unfolding lemma: when the pattern does not match at the head, the head
character is kept and scanning continues on the tail. -/
theorem replaceAll_cons_neg (p : Char) (ps rep : List Char) (c : Char)
    (rest : List Char) (h : startsWith (c :: rest) (p :: ps) = false) :
    replaceAll (p :: ps) rep (c :: rest) =
      c :: replaceAll (p :: ps) rep rest := by
  rw [replaceAll]
  simp [h]

/-- A matched string is the pattern followed by the rest of the string. -/
theorem startsWith_append (pat : List Char) :
    ∀ s, startsWith s pat = true → s = pat ++ List.drop pat.length s := by
  induction pat with
  | nil => intro s _; simp
  | cons p ps ih =>
    intro s h
    match s with
    | [] => simp [startsWith] at h
    | c :: rest =>
      simp only [startsWith, Bool.and_eq_true, beq_iff_eq] at h
      obtain ⟨rfl, h2⟩ := h
      simpa using ih rest h2

/-! ## Claim theorems -/

/-- C1: for every input string the translator applies exactly the six
literal-substring replacements of the specification, in the specification's
order, and in particular the token-only patterns translate to the bare
regex fragments. -/
theorem convertPattern_spec_order :
    (∀ p, convertPattern p = translateSpecC1 p) ∧
    convertPattern "<>".data = ".*".data ∧
    convertPattern "<num>".data = "\\d+".data := by
  refine ⟨fun p => rfl, ?_, ?_⟩ <;> simp [convertPattern, replaceAll, startsWith]

/-- C3, counterexample: translating the pattern with literal parentheses
does not yield the claimed string with unescaped parentheses. -/
theorem convertPattern_def_name_counterexample :
    convertPattern "def <name>():".data ≠ "def \\w+():".data := by
  have h : convertPattern "def <name>():".data = "def \\w+\\(\\):".data := by
    simp [convertPattern, replaceAll, startsWith]
  rw [h]
  decide

/-- C3, amended: translating the def-name pattern yields the string whose
parentheses are escaped and whose name token is substituted. -/
theorem convertPattern_def_name_escaped :
    convertPattern "def <name>():".data = "def \\w+\\(\\):".data := by
  simp [convertPattern, replaceAll, startsWith]

/-- C8: the translator is not idempotent on strings containing a character
of the escaped set; the single opening parenthesis witnesses it. -/
theorem convertPattern_not_idempotent :
    ∃ s, s.any isBracket = true ∧
      convertPattern (convertPattern s) ≠ convertPattern s := by
  refine ⟨"(".data, by decide, ?_⟩
  have h1 : convertPattern "(".data = "\\(".data := by
    simp [convertPattern, replaceAll, startsWith]
  have h2 : convertPattern "\\(".data = "\\\\(".data := by
    simp [convertPattern, replaceAll, startsWith]
  rw [h1, h2]
  decide

/-- C6: the executed command vector is the tool name, the translated
pattern, the default options in configured order, then the extra arguments
in given order; a count invocation inserts the per-file count flag before
the extra arguments. -/
theorem cmd_vector_contract :
    ∀ (r : Ripit) (pattern : List Char) (args : List (List Char)),
      searchCmd r pattern args =
        "rg".data :: convertPattern pattern :: (r.default_args ++ args) ∧
      countCmd r pattern args =
        "rg".data :: convertPattern pattern ::
          (r.default_args ++ ("-c".data :: args)) := by
  intro r pattern args
  constructor <;> simp [searchCmd, countCmd]

/-- C7: a missing external tool makes construction fail at once with the
dependency-missing error, and that error is the only one any operation ever
surfaces: whenever the process oracle reports that the process ran, search,
lines and count all return ordinary results, whatever the output text, the
standard error text and the exit code were. -/
theorem only_dependency_missing_raises :
    (∀ dflt, ripitInit false dflt = Except.error RipitError.dependencyMissing) ∧
    (∀ exec r pattern args,
      (exec (searchCmd r pattern args) = ExecOutcome.notFound ∧
        Ripit.search exec r pattern args =
          Except.error RipitError.dependencyMissing ∧
        Ripit.lines exec r pattern args =
          Except.error RipitError.dependencyMissing) ∨
      (∃ out err code,
        exec (searchCmd r pattern args) = ExecOutcome.ran out err code ∧
        Ripit.search exec r pattern args = Except.ok out ∧
        Ripit.lines exec r pattern args = Except.ok (linesOf out))) ∧
    (∀ exec r pattern args,
      (exec (countCmd r pattern args) = ExecOutcome.notFound ∧
        Ripit.count exec r pattern args =
          Except.error RipitError.dependencyMissing) ∨
      (∃ out err code,
        exec (countCmd r pattern args) = ExecOutcome.ran out err code ∧
        Ripit.count exec r pattern args = Except.ok (countOutput out))) := by
  refine ⟨fun dflt => rfl, fun exec r pattern args => ?_,
    fun exec r pattern args => ?_⟩
  · cases h : exec (searchCmd r pattern args) with
    | notFound =>
      exact Or.inl ⟨rfl, by simp [Ripit.search, h],
        by simp [Ripit.lines, Ripit.search, h, Except.map]⟩
    | ran out err code =>
      exact Or.inr ⟨out, err, code, rfl, by simp [Ripit.search, h],
        by simp [Ripit.lines, Ripit.search, h, Except.map]⟩
  · cases h : exec (countCmd r pattern args) with
    | notFound =>
      refine Or.inl ⟨rfl, ?_⟩
      simp only [Ripit.count, Ripit.search]
      rw [show searchCmd r pattern ("-c".data :: args) = countCmd r pattern args from rfl, h]
      rfl
    | ran out err code =>
      refine Or.inr ⟨out, err, code, rfl, ?_⟩
      simp only [Ripit.count, Ripit.search]
      rw [show searchCmd r pattern ("-c".data :: args) = countCmd r pattern args from rfl, h]
      rfl

/-- C9: the default options are fixed at construction: running any sequence
of operations leaves the instance state unchanged, every executed command
vector is the one computed from the original instance, and every command
vector carries the construction-time default options between the translated
pattern and that call's extra arguments. -/
theorem default_args_immutable :
    ∀ (r : Ripit) (ops : List RipitOp),
      (runOps r ops).fst = r ∧
      (runOps r ops).snd = ops.map (opCmd r) ∧
      ∀ op, ∃ p extra,
        opCmd r op = "rg".data :: convertPattern p :: (r.default_args ++ extra) := by
  intro r ops
  refine ⟨?_, ?_, ?_⟩
  · induction ops with
    | nil => rfl
    | cons op rest ih => simpa [runOps] using ih
  · induction ops with
    | nil => rfl
    | cons op rest ih => simpa [runOps] using ih
  · intro op
    cases op with
    | searchOp p args => exact ⟨p, args, by simp [opCmd, searchCmd]⟩
    | linesOp p args => exact ⟨p, args, by simp [opCmd, searchCmd]⟩
    | countOp p args =>
      exact ⟨p, "-c".data :: args, by simp [opCmd, countCmd, searchCmd]⟩

/-- Replacing a pattern that does not occur in the string leaves the string
unchanged. -/
theorem replaceAll_not_occurs (pat rep : List Char) :
    ∀ s, occursIn pat s = false → replaceAll pat rep s = s := by
  intro s
  induction s with
  | nil =>
    intro h
    cases pat with
    | nil => simp [occursIn, startsWith] at h
    | cons p ps => exact replaceAll_nil p ps rep
  | cons c rest ih =>
    intro h
    simp only [occursIn, Bool.or_eq_false_iff] at h
    obtain ⟨h1, h2⟩ := h
    cases pat with
    | nil => simp [startsWith] at h1
    | cons p ps => rw [replaceAll_cons_neg p ps rep c rest h1, ih h2]

/-- A single-character pattern is absent exactly when no character of the
string equals it. -/
theorem occursIn_single_eq_false (a : Char) (s : List Char)
    (h : ∀ c ∈ s, c ≠ a) : occursIn [ a ] s = false := by
  induction s with
  | nil => rfl
  | cons c rest ih =>
    have hc : c ≠ a := h c (List.mem_cons_self c rest)
    have hrest := ih (fun x hx => h x (List.mem_cons_of_mem c hx))
    simp [occursIn, startsWith, hc, hrest]

/-- C10: an input containing none of the six escaped characters and no
occurrence of the tokens for match-anything, name or number passes through
the translator unchanged, angle brackets included. -/
theorem convertPattern_passthrough :
    ∀ p, (∀ c ∈ p, isBracket c = false) →
      occursIn [ '<', '>' ] p = false →
      occursIn [ '<', 'n', 'a', 'm', 'e', '>' ] p = false →
      occursIn [ '<', 'n', 'u', 'm', '>' ] p = false →
      convertPattern p = p := by
  intro p hb h1 h2 h3
  have hb' : ∀ c ∈ p, c ≠ '(' ∧ c ≠ ')' ∧ c ≠ '[' ∧ c ≠ ']' ∧
      c ≠ '\x7b' ∧ c ≠ '\x7d' := by
    intro c hc
    have := hb c hc
    simp only [isBracket, Bool.or_eq_false_iff, beq_eq_false_iff_ne, ne_eq] at this
    tauto
  have e1 := replaceAll_not_occurs [ '(' ] [ '\\', '(' ] p
    (occursIn_single_eq_false '(' p (fun c hc => (hb' c hc).1))
  have e2 := replaceAll_not_occurs [ ')' ] [ '\\', ')' ] p
    (occursIn_single_eq_false ')' p (fun c hc => (hb' c hc).2.1))
  have e3 := replaceAll_not_occurs [ '[' ] [ '\\', '[' ] p
    (occursIn_single_eq_false '[' p (fun c hc => (hb' c hc).2.2.1))
  have e4 := replaceAll_not_occurs [ ']' ] [ '\\', ']' ] p
    (occursIn_single_eq_false ']' p (fun c hc => (hb' c hc).2.2.2.1))
  have e5 := replaceAll_not_occurs [ '\x7b' ] [ '\\', '\x7b' ] p
    (occursIn_single_eq_false '\x7b' p (fun c hc => (hb' c hc).2.2.2.2.1))
  have e6 := replaceAll_not_occurs [ '\x7d' ] [ '\\', '\x7d' ] p
    (occursIn_single_eq_false '\x7d' p (fun c hc => (hb' c hc).2.2.2.2.2))
  have e7 := replaceAll_not_occurs [ '<', '>' ] [ '.', '*' ] p h1
  have e8 := replaceAll_not_occurs [ '<', 'n', 'a', 'm', 'e', '>' ]
    [ '\\', 'w', '+' ] p h2
  have e9 := replaceAll_not_occurs [ '<', 'n', 'u', 'm', '>' ]
    [ '\\', 'd', '+' ] p h3
  simp only [convertPattern]
  rw [e1, e2, e3, e4, e5, e6, e7, e8, e9]

/-- C10 witness: the angle-bracketed token foo, which is none of the three
placeholders, passes through unchanged. -/
theorem convertPattern_passthrough_witness :
    ((∀ c ∈ "<foo>".data, isBracket c = false) ∧
      occursIn [ '<', '>' ] "<foo>".data = false ∧
      occursIn [ '<', 'n', 'a', 'm', 'e', '>' ] "<foo>".data = false ∧
      occursIn [ '<', 'n', 'u', 'm', '>' ] "<foo>".data = false) ∧
    convertPattern "<foo>".data = "<foo>".data :=
  ⟨⟨by decide, by decide, by decide, by decide⟩,
    convertPattern_passthrough "<foo>".data (by decide) (by decide)
      (by decide) (by decide)⟩

/-- Stripping yields the empty string exactly when every character is
whitespace. -/
theorem strip_eq_nil_iff (l : List Char) :
    strip l = [] ↔ ∀ c ∈ l, isPySpace c = true := by
  unfold strip
  rw [List.reverse_eq_nil_iff, List.dropWhile_eq_nil_iff]
  constructor
  · intro h c hc
    rcases List.mem_append.mp
        (by rw [List.takeWhile_append_dropWhile (p := isPySpace) (l := l)]; exact hc) with
      htake | hdrop
    · exact List.mem_takeWhile_imp htake
    · exact h c (List.mem_reverse.mpr hdrop)
  · intro h c hc
    exact h c ((List.dropWhile_sublist isPySpace).mem (List.mem_reverse.mp hc))

/-- The source's keep-test (nonempty after stripping) agrees with the
specification's wording (some character is not whitespace). -/
theorem strip_isEmpty_eq (l : List Char) :
    (!(strip l).isEmpty) = l.any (fun c => !(isPySpace c)) := by
  rw [Bool.eq_iff_iff]
  simp only [Bool.not_eq_true', List.any_eq_true]
  constructor
  · intro h
    by_contra hall
    push_neg at hall
    have hnil : strip l = [] := (strip_eq_nil_iff l).mpr (by
      intro c hc
      cases hsp : isPySpace c with
      | false => exact absurd hsp (hall c hc)
      | true => rfl)
    rw [hnil] at h
    simp at h
  · rintro ⟨c, hc, hcf⟩
    cases hemp : (strip l).isEmpty with
    | false => rfl
    | true =>
      have hnil : strip l = [] := List.isEmpty_iff.mp hemp
      have := (strip_eq_nil_iff l).mp hnil c hc
      rw [this] at hcf
      exact absurd hcf (by simp)

/-- C5: the line view splits the raw output at line boundaries, keeps
exactly the lines having some non-whitespace character, in order, and on
the four-line example returns the two non-blank lines. -/
theorem lines_filters_blank :
    (∀ out, linesOf out =
      (splitlines out).filter (fun line => line.any (fun c => !(isPySpace c)))) ∧
    linesOf "a\n\n  \nb\n".data = [ "a".data, "b".data ] := by
  constructor
  · intro out
    unfold linesOf
    exact List.filter_congr (fun l _ => strip_isEmpty_eq l)
  · rfl

/-- Splitting never yields an empty field list. -/
theorem splitOnChar_ne_nil (sep : Char) : ∀ s, splitOnChar sep s ≠ [] := by
  intro s
  match s with
  | [] => simp [splitOnChar]
  | c :: rest =>
    rw [splitOnChar]
    split
    · simp
    · split <;> simp

/-- A line without a colon has no text after a last colon. -/
theorem afterLastColon_eq_none :
    ∀ line, line.contains ':' = false → afterLastColon line = none := by
  intro line
  induction line with
  | nil => intro _; rfl
  | cons c rest ih =>
    intro h
    rw [List.contains_cons, Bool.or_eq_false_iff] at h
    obtain ⟨h1, h2⟩ := h
    have h1' : (c == ':') = false := by
      rw [beq_eq_false_iff_ne] at h1 ⊢
      exact fun hh => h1 hh.symm
    simp [afterLastColon, ih h2, h1']

/-- Splitting a string that lacks the separator yields the one-field list. -/
theorem splitOnChar_no_sep (sep : Char) :
    ∀ s, s.contains sep = false → splitOnChar sep s = [ s ] := by
  intro s
  induction s with
  | nil => intro _; rfl
  | cons c rest ih =>
    intro h
    rw [List.contains_cons, Bool.or_eq_false_iff] at h
    obtain ⟨h1, h2⟩ := h
    have h1' : (c == sep) = false := by
      rw [beq_eq_false_iff_ne] at h1 ⊢
      exact fun hh => h1 hh.symm
    simp [splitOnChar, h1', ih h2]

/-- Splitting a string that contains the separator yields at least two
fields. -/
theorem splitOnChar_two (sep : Char) :
    ∀ s, s.contains sep = true → ∃ f g gs, splitOnChar sep s = f :: g :: gs := by
  intro s
  induction s with
  | nil => intro h; simp [List.contains] at h
  | cons c rest ih =>
    intro h
    by_cases hc : c = sep
    · subst hc
      obtain ⟨f, fs, hsp⟩ : ∃ f fs, splitOnChar c rest = f :: fs := by
        cases hx : splitOnChar c rest with
        | nil => exact absurd hx (splitOnChar_ne_nil c rest)
        | cons f fs => exact ⟨f, fs, rfl⟩
      exact ⟨[], f, fs, by simp [splitOnChar, hsp]⟩
    · have hb : (sep == c) = false := beq_eq_false_iff_ne.mpr (fun hh => hc hh.symm)
      have h2 : rest.contains sep = true := by
        rw [List.contains_cons, hb, Bool.false_or] at h
        exact h
      obtain ⟨f, g, gs, hsp⟩ := ih h2
      have hb2 : (c == sep) = false := beq_eq_false_iff_ne.mpr hc
      exact ⟨c :: f, g, gs, by simp [splitOnChar, hb2, hsp]⟩

/-- The source's take-the-last-split-field computation, guarded by the
colon test, agrees with the specification's text-after-the-last-colon
reading. -/
theorem lastField_eq_afterLastColon : ∀ line,
    (if line.contains ':' then some ((splitOnChar ':' line).getLastD []) else none) =
      afterLastColon line := by
  intro line
  induction line with
  | nil => rfl
  | cons c rest ih =>
    by_cases hc : c = ':'
    · subst hc
      have hcon : (':' :: rest).contains ':' = true := by simp
      rw [if_pos hcon]
      have hsplit : splitOnChar ':' (':' :: rest) = [] :: splitOnChar ':' rest := by
        simp [splitOnChar]
      rw [hsplit, List.getLastD_cons, afterLastColon]
      by_cases h2 : rest.contains ':' = true
      · rw [if_pos h2] at ih
        rw [← ih]
      · have h2' : rest.contains ':' = false := by rwa [Bool.not_eq_true] at h2
        rw [afterLastColon_eq_none rest h2', splitOnChar_no_sep ':' rest h2']
        simp
    · have hbc : (c == ':') = false := beq_eq_false_iff_ne.mpr hc
      have hbs : (':' == c) = false := beq_eq_false_iff_ne.mpr (fun hh => hc hh.symm)
      have hcon : (c :: rest).contains ':' = rest.contains ':' := by
        rw [List.contains_cons, hbs, Bool.false_or]
      rw [afterLastColon, hcon]
      by_cases h2 : rest.contains ':' = true
      · obtain ⟨f, g, gs, hsp⟩ := splitOnChar_two ':' rest h2
        have hsplit : splitOnChar ':' (c :: rest) = (c :: f) :: g :: gs := by
          simp [splitOnChar, hbc, hsp]
        rw [if_pos h2] at ih
        rw [if_pos h2, hsplit, ← ih, hsp]
        show some (((c :: f) :: g :: gs).getLastD []) =
          some ((f :: g :: gs).getLastD [])
        rw [List.getLastD_cons, List.getLastD_cons, List.getLastD_cons,
          List.getLastD_cons]
      · have h2' : rest.contains ':' = false := by rwa [Bool.not_eq_true] at h2
        rw [afterLastColon_eq_none rest h2', if_neg h2]
        simp [hbc]

/-- The count loop's fold equals the starting total plus the sum of the
successfully parsed last fields. -/
theorem foldl_countLine : ∀ (ls : List (List Char)) (t : Int),
    ls.foldl countLine t =
      t + (ls.filterMap (fun line => (afterLastColon line).bind pyInt)).sum := by
  intro ls
  induction ls with
  | nil => intro t; simp
  | cons l ls ih =>
    intro t
    rw [List.foldl_cons, ih, List.filterMap_cons]
    by_cases hcol : l.contains ':' = true
    · have hb := lastField_eq_afterLastColon l
      rw [if_pos hcol] at hb
      cases hp : pyInt ((splitOnChar ':' l).getLastD []) with
      | none =>
        have hnone : (afterLastColon l).bind pyInt = none := by
          rw [← hb]
          exact hp
        rw [hnone]
        have hcl : countLine t l = t := by
          unfold countLine
          rw [if_pos hcol, hp]
        rw [hcl]
      | some n =>
        have hsome : (afterLastColon l).bind pyInt = some n := by
          rw [← hb]
          exact hp
        rw [hsome]
        have hcl : countLine t l = t + n := by
          unfold countLine
          rw [if_pos hcol, hp]
        rw [hcl]
        simp only [List.sum_cons]
        ring
    · have hcol' : l.contains ':' = false := by rwa [Bool.not_eq_true] at hcol
      have hnone : (afterLastColon l).bind pyInt = none := by
        rw [afterLastColon_eq_none l hcol']
        rfl
      rw [hnone]
      have hcl : countLine t l = t := by
        unfold countLine
        rw [if_neg hcol]
      rw [hcl]

/-- C2: the count aggregation equals the specification's reading: per line
the last colon-delimited field is parsed as an integer, successes are
summed, failures and colon-less lines contribute nothing, and the total is
zero when nothing parses; the two concrete outputs evaluate as claimed. -/
theorem count_sums_parseable_fields :
    (∀ out, countOutput out = countSpec out) ∧
    countOutput "file1.py:3\nfile2.py:5\n".data = 8 ∧
    countOutput "file1.py:abc\nfile2.py:5\n".data = 5 := by
  refine ⟨fun out => ?_, by rfl, by rfl⟩
  unfold countOutput countSpec
  rw [foldl_countLine]
  simp

/-- The backslash scan splits over concatenation, threading the
last-character flag. -/
theorem okFrom_append : ∀ (xs ys : List Char) (b : Bool),
    okFrom b (xs ++ ys) = (okFrom b xs && okFrom (endsBS b xs) ys) := by
  intro xs
  induction xs with
  | nil => intro ys b; simp [okFrom, endsBS]
  | cons c rest ih =>
    intro ys b
    simp only [List.cons_append, okFrom, endsBS, List.append_eq, ih, Bool.and_assoc]

/-- A string passing the scan with the strict flag passes it with any
flag. -/
theorem okFrom_mono (xs : List Char) (b : Bool) (h : okFrom false xs = true) :
    okFrom b xs = true := by
  cases xs with
  | nil => rfl
  | cons c rest =>
    simp only [okFrom, Bool.and_eq_true] at h ⊢
    refine ⟨?_, h.2⟩
    have h1 := h.1
    cases hcb : isBracket c with
    | false => simp [hcb]
    | true => rw [hcb] at h1; simp at h1

/-- A string with no escaped-set character passes the scan under any
flag. -/
theorem okFrom_of_noBrackets :
    ∀ (xs : List Char) (b : Bool), (∀ c ∈ xs, isBracket c = false) →
      okFrom b xs = true := by
  intro xs
  induction xs with
  | nil => intro b _; rfl
  | cons c rest ih =>
    intro b h
    simp only [okFrom, Bool.and_eq_true]
    constructor
    · have := h c (List.mem_cons_self c rest)
      simp [this]
    · exact ih (c == '\\') (fun x hx => h x (List.mem_cons_of_mem c hx))

/-- A nonempty string free of backslashes does not end in a backslash. -/
theorem endsBS_eq_false :
    ∀ (ps : List Char) (p : Char) (b : Bool), (∀ c ∈ p :: ps, c ≠ '\\') →
      endsBS b (p :: ps) = false := by
  intro ps
  induction ps with
  | nil =>
    intro p b h
    simp only [endsBS]
    exact beq_eq_false_iff_ne.mpr (h p (List.mem_cons_self p []))
  | cons q qs ih =>
    intro p b h
    rw [endsBS]
    exact ih q (p == '\\') (fun c hc => h c (List.mem_cons_of_mem p hc))

/-- Replacing a backslash-free, escaped-set-free pattern by an
escaped-set-free replacement preserves the every-escaped-character-is-
backslash-prefixed invariant. -/
theorem okFrom_replaceAll (p : Char) (ps rep : List Char)
    (hpatB : ∀ c ∈ p :: ps, isBracket c = false)
    (hpatS : ∀ c ∈ p :: ps, c ≠ '\\')
    (hrep : ∀ c ∈ rep, isBracket c = false)
    (s : List Char) (b : Bool) (hok : okFrom b s = true) :
    okFrom b (replaceAll (p :: ps) rep s) = true := by
  match s with
  | [] =>
    rw [replaceAll_nil]
    rfl
  | c :: rest =>
    cases hst : startsWith (c :: rest) (p :: ps) with
    | true =>
      rw [replaceAll_cons_pos p ps rep c rest hst, okFrom_append,
        Bool.and_eq_true]
      constructor
      · exact okFrom_of_noBrackets rep b hrep
      · apply okFrom_replaceAll p ps rep hpatB hpatS hrep
          (List.drop ps.length rest) (endsBS b rep)
        apply okFrom_mono
        have hsplit := startsWith_append (p :: ps) (c :: rest) hst
        rw [hsplit, okFrom_append, Bool.and_eq_true] at hok
        have h2 := hok.2
        rw [endsBS_eq_false ps p b hpatS] at h2
        simpa using h2
    | false =>
      rw [replaceAll_cons_neg p ps rep c rest hst]
      simp only [okFrom, Bool.and_eq_true] at hok ⊢
      exact ⟨hok.1,
        okFrom_replaceAll p ps rep hpatB hpatS hrep rest (c == '\\') hok.2⟩
termination_by s.length
decreasing_by
  all_goals simp [List.length_drop]
  all_goals omega

/-- A single-character replacement acts independently on each character. -/
theorem replaceAll_single (a : Char) (rep : List Char) :
    ∀ s, replaceAll [ a ] rep s =
      s.flatMap (fun c => if c == a then rep else [ c ]) := by
  intro s
  induction s with
  | nil => simp [replaceAll_nil]
  | cons c rest ih =>
    cases hca : (c == a) with
    | true =>
      have hst : startsWith (c :: rest) [ a ] = true := by
        simp [startsWith, hca]
      rw [replaceAll_cons_pos a [] rep c rest hst]
      have hceq : c = a := beq_iff_eq.mp hca
      subst hceq
      simp [List.flatMap_cons, ih]
    | false =>
      have hst : startsWith (c :: rest) [ a ] = false := by
        simp [startsWith, hca]
      rw [replaceAll_cons_neg a [] rep c rest hst]
      have hne : c ≠ a := beq_eq_false_iff_ne.mp hca
      simp [List.flatMap_cons, hne, ih]

/-- The six escaping passes act on the head character and the tail
independently. -/
theorem escapeAll_cons (c : Char) (p : List Char) :
    escapeAll (c :: p) = escBr c ++ escapeAll p := by
  unfold escapeAll escBr isBracket
  simp only [replaceAll_single, List.flatMap_cons, List.flatMap_append]
  by_cases h1 : c = '('
  · subst h1; simp
  by_cases h2 : c = ')'
  · subst h2; simp
  by_cases h3 : c = '['
  · subst h3; simp
  by_cases h4 : c = ']'
  · subst h4; simp
  by_cases h5 : c = '\x7b'
  · subst h5; simp
  by_cases h6 : c = '\x7d'
  · subst h6; simp
  simp [h1, h2, h3, h4, h5, h6]

/-- The composition of the six escaping passes equals the per-character
escaping map. -/
theorem escapeAll_flatMap : ∀ p, escapeAll p = p.flatMap escBr := by
  intro p
  induction p with
  | nil => simp [escapeAll, replaceAll_nil]
  | cons c rest ih => rw [escapeAll_cons, ih, List.flatMap_cons]

/-- The per-character escaping map produces a string in which every
escaped-set character is immediately preceded by a backslash. -/
theorem okFrom_flatMap_escBr :
    ∀ (p : List Char) (b : Bool), okFrom b (p.flatMap escBr) = true := by
  intro p
  induction p with
  | nil => intro b; rfl
  | cons c rest ih =>
    intro b
    rw [List.flatMap_cons]
    unfold escBr
    by_cases hc : isBracket c = true
    · rw [if_pos hc]
      have hcb : (c == '\\') = false := beq_eq_false_iff_ne.mpr (by
        intro h
        subst h
        simp [isBracket] at hc)
      simp only [List.cons_append, List.nil_append, okFrom, Bool.and_eq_true]
      refine ⟨?_, ?_, ?_⟩
      · simp [isBracket]
      · simp
      · rw [hcb]
        exact ih false
    · rw [if_neg hc]
      rw [Bool.not_eq_true] at hc
      simp only [List.singleton_append, okFrom, Bool.and_eq_true]
      exact ⟨by simp [hc], ih (c == '\\')⟩

/-- The translator is the three token substitutions applied after the six
escaping passes. -/
theorem convertPattern_eq_tokens (p : List Char) :
    convertPattern p =
      replaceAll [ '<', 'n', 'u', 'm', '>' ] [ '\\', 'd', '+' ]
        (replaceAll [ '<', 'n', 'a', 'm', 'e', '>' ] [ '\\', 'w', '+' ]
          (replaceAll [ '<', '>' ] [ '.', '*' ] (escapeAll p))) := rfl

/-- Positional reading of the backslash scan: a passing string has every
escaped-set character strictly after position zero and preceded by a
backslash; the flag covers position zero. -/
theorem okFrom_getD :
    ∀ (xs : List Char) (b : Bool), okFrom b xs = true →
      ∀ i, isBracket (xs.getD i ' ') = true →
        (i = 0 → b = true) ∧ (0 < i → xs.getD (i - 1) ' ' = '\\') := by
  intro xs
  induction xs with
  | nil =>
    intro b _ i hi
    rw [show ([] : List Char).getD i ' ' = ' ' from by simp [List.getD]] at hi
    exact absurd hi (by decide)
  | cons c rest ih =>
    intro b hok i hi
    simp only [okFrom, Bool.and_eq_true] at hok
    obtain ⟨h1, h2⟩ := hok
    match i with
    | 0 =>
      refine ⟨fun _ => ?_, fun h0 => absurd h0 (by omega)⟩
      rw [List.getD_cons_zero] at hi
      cases b with
      | true => rfl
      | false => rw [hi] at h1; simp at h1
    | Nat.succ k =>
      have hker := ih (c == '\\') h2 k (by
        rw [List.getD_cons_succ] at hi
        exact hi)
      refine ⟨fun h => absurd h (Nat.succ_ne_zero k), fun _ => ?_⟩
      cases k with
      | zero =>
        have hc := beq_iff_eq.mp (hker.1 rfl)
        simpa using hc
      | succ m =>
        have hm := hker.2 (Nat.succ_pos m)
        simpa [List.getD_cons_succ] using hm

/-- C4: in the translator's output every escaped-set character sits
strictly after the start of the string and is immediately preceded by a
backslash (reading characters with a blank default out of range). -/
theorem convertPattern_brackets_escaped :
    ∀ p i, isBracket ((convertPattern p).getD i ' ') = true →
      0 < i ∧ (convertPattern p).getD (i - 1) ' ' = '\\' := by
  intro p i hi
  have hok : okFrom false (convertPattern p) = true := by
    rw [convertPattern_eq_tokens]
    apply okFrom_replaceAll _ _ _ (by decide) (by decide) (by decide)
    apply okFrom_replaceAll _ _ _ (by decide) (by decide) (by decide)
    apply okFrom_replaceAll _ _ _ (by decide) (by decide) (by decide)
    rw [escapeAll_flatMap]
    exact okFrom_flatMap_escBr p false
  have h := okFrom_getD (convertPattern p) false hok i hi
  rcases Nat.eq_zero_or_pos i with h0 | hpos
  · subst h0
    exact absurd (h.1 rfl) (by simp)
  · exact ⟨hpos, h.2 hpos⟩

/-- C4 witness: translating the one-character pattern of an opening
parenthesis puts an escaped-set character at position one, preceded by the
backslash at position zero. -/
theorem convertPattern_brackets_escaped_witness :
    isBracket ((convertPattern "(".data).getD 1 ' ') = true ∧
    (0 < 1 ∧ (convertPattern "(".data).getD (1 - 1) ' ' = '\\') := by
  have hconv : convertPattern "(".data = [ '\\', '(' ] := by
    simp [convertPattern, replaceAll, startsWith]
  have h1 : isBracket ((convertPattern "(".data).getD 1 ' ') = true := by
    rw [hconv]
    decide
  exact ⟨h1, convertPattern_brackets_escaped "(".data 1 h1⟩


